import Mathlib

/-
Verification of the page-graph tool (src/main.rs): link extraction,
URL normalization, page-graph construction and reachability-based
orphan detection, shallowly embedded in Lean.
-/

set_option maxHeartbeats 1000000

/- ===================================================================
   Page graph: petgraph GraphMap<&str, &str, Directed>
   =================================================================== -/

/-- A directed graph given by a node list and an edge list, modelling
petgraph's GraphMap: each node is stored once, and edges are keyed by
their endpoint pair (re-adding an existing edge only rewrites the
uniform weight, which is the constant string "links" and is therefore
omitted). -/
structure PageGraph where
  nodes : List String
  edges : List (String × String)

/-- GraphMap.add_node: insert the node if it is absent. -/
def addNode (g : PageGraph) (n : String) : PageGraph :=
  if n ∈ g.nodes then g else { g with nodes := g.nodes ++ [n] }

/-- GraphMap.add_edge: missing endpoints are inserted as nodes, and the
edge is inserted if absent. -/
def addEdge (g : PageGraph) (a b : String) : PageGraph :=
  if (a, b) ∈ (addNode (addNode g a) b).edges then addNode (addNode g a) b
  else { addNode (addNode g a) b with edges := (addNode (addNode g a) b).edges ++ [(a, b)] }

/-- Inner loop of make_page_graph: add every target value as a node and
add one directed edge from the key to each target. -/
def addTargets (k : String) (g : PageGraph) (values : List String) : PageGraph :=
  values.foldl (fun g v => addEdge (addNode g v) k v) g

/-- One iteration of make_page_graph over a map entry. -/
def addEntry (g : PageGraph) (kv : String × List String) : PageGraph :=
  addTargets kv.1 (addNode g kv.1) kv.2

/-- make_page_graph: fold the linkage map into a graph. The HashMap is
modelled as an association list with one entry per key; every claim
about the result is stated at the level of node and edge membership and
is therefore independent of iteration order. -/
def make_page_graph (data : List (String × List String)) : PageGraph :=
  data.foldl addEntry { nodes := [], edges := [] }

/-- The linkage map with duplicate targets removed from each value
sequence (used to state the edge-idempotence claim). -/
def dedupValues (data : List (String × List String)) : List (String × List String) :=
  data.map (fun kv => (kv.1, kv.2.dedup))

/- ===================================================================
   Reachability analyzer: find_orphans (petgraph Dfs from "index")
   =================================================================== -/

/-- Outgoing neighbors of a node: the targets of the edges leaving it
(GraphMap neighbor iteration for a Directed graph; a start node that is
not in the graph has no adjacency entry and yields no neighbors). -/
def neighbors (g : PageGraph) (n : String) : List String :=
  (g.edges.filter (fun e => decide (e.1 = n))).map Prod.snd

/-- Every edge target of the graph. -/
def targetsOf (g : PageGraph) : List String := g.edges.map Prod.snd

/-- The petgraph Dfs loop driven by find_orphans: pop a node; if it was
already discovered skip it, otherwise mark it discovered and push its
undiscovered successors. The fuel argument bounds the number of loop
iterations; find_orphans supplies enough fuel for the stack to be
exhausted, and the development proves that any additional fuel leaves
the result unchanged. -/
def dfsLoop (g : PageGraph) : Nat → List String → List String → List String
  | 0, _, visited => visited
  | _ + 1, [], visited => visited
  | fuel + 1, n :: rest, visited =>
    if n ∈ visited then
      dfsLoop g fuel rest visited
    else
      dfsLoop g fuel
        (((neighbors g n).filter (fun w => decide (w ∉ visited))) ++ rest)
        (n :: visited)

/-- Fuel that always lets dfsLoop run the stack dry when started on the
root stack (proved by dfsLoop_master below). -/
def dfsFuel (g : PageGraph) : Nat :=
  1 + (("index" :: targetsOf g).toFinset.card) * (g.edges.length + 1)

/-- find_orphans: start from the set of all nodes and remove every node
the depth-first walk from the hardcoded root "index" visits. -/
def find_orphans (g : PageGraph) : Finset String :=
  (g.nodes.filter (fun n => decide (n ∉ dfsLoop g (dfsFuel g) ["index"] []))).toFinset

/-- The edge relation of a graph; a node is reachable from the root
exactly when the reflexive-transitive closure of this relation relates
them. -/
def edgeRel (g : PageGraph) (a b : String) : Prop := (a, b) ∈ g.edges

/- ===================================================================
   Normalization: remove_trailing_slash
   =================================================================== -/

/-- remove_trailing_slash: if the text ends with a slash, pop exactly
that one final character. -/
def remove_trailing_slash (text : String) : String :=
  if text.data.getLast? = some '/' then String.mk text.data.dropLast else text

/- ===================================================================
   Normalization: filter_prefix with the TRAPL_PREFIXES regex
   =================================================================== -/

/-- Match a literal character sequence, returning the remaining input. -/
def matchLit : List Char → List Char → Option (List Char)
  | [], s => some s
  | _ :: _, [] => none
  | c :: cs, x :: xs => if x == c then matchLit cs xs else none

/-- Match the host part of TRAPL_PREFIXES. The two dots of the regex
text www.traplinked.com are unescaped, so each matches any character
except a newline. -/
def matchHost : List Char → Option (List Char)
  | 'w' :: 'w' :: 'w' :: d1 :: 't' :: 'r' :: 'a' :: 'p' :: 'l' :: 'i' :: 'n' :: 'k' :: 'e' :: 'd' :: d2 :: 'c' :: 'o' :: 'm' :: rest =>
    if d1 == '\n' || d2 == '\n' then none else some rest
  | _ => none

/-- Attempt to match TRAPL_PREFIXES, the regex
http[s]?://www.traplinked.com/(en/|nl/)?, at the start of the input,
with the backtracking priorities of the regex engine: the optional s is
tried first, and the optional locale group prefers en/ then nl/ then
the empty match. -/
def matchPrefixAt (s : List Char) : Option (List Char) :=
  match matchLit ['h', 't', 't', 'p'] s with
  | none => none
  | some s1 =>
    let afterScheme : Option (List Char) :=
      match s1 with
      | 's' :: s2 =>
        match matchLit [':', '/', '/'] s2 with
        | some s3 => some s3
        | none => matchLit [':', '/', '/'] s1
      | _ => matchLit [':', '/', '/'] s1
    match afterScheme with
    | none => none
    | some s3 =>
      match matchHost s3 with
      | none => none
      | some s4 =>
        match matchLit ['/'] s4 with
        | none => none
        | some s5 =>
          match matchLit ['e', 'n', '/'] s5 with
          | some s6 => some s6
          | none =>
            match matchLit ['n', 'l', '/'] s5 with
            | some s6 => some s6
            | none => some s5

/-- Remove the leftmost match of TRAPL_PREFIXES from the input
(Regex::replace replaces the first match, wherever it occurs). -/
def replaceFirst : List Char → List Char
  | [] => []
  | c :: rest =>
    match matchPrefixAt (c :: rest) with
    | some rem => rem
    | none => c :: replaceFirst rest

/-- True exactly when TRAPL_PREFIXES matches at some position. -/
def hasMatch : List Char → Bool
  | [] => false
  | c :: rest => (matchPrefixAt (c :: rest)).isSome || hasMatch rest

/-- True exactly when no match of TRAPL_PREFIXES starts inside pre when
the input continues with rest. -/
def matchFreePre : List Char → List Char → Bool
  | [], _ => true
  | c :: p, rest => !(matchPrefixAt ((c :: p) ++ rest)).isSome && matchFreePre p rest

/-- filter_prefix applied to the TRAPL_PREFIXES pattern of the pipeline:
replace the first match of the regex with the empty string. -/
def filter_prefix (text : String) : String :=
  String.mk (replaceFirst text.data)

/- ===================================================================
   Link extractor: get_urls_from with the URL regex
   =================================================================== -/

/-- The single-quote character. -/
def qSingle : Char := Char.ofNat 39

/-- The double-quote character. -/
def qDouble : Char := Char.ofNat 34

/-- The backslash character. -/
def cBackslash : Char := Char.ofNat 92

/-- ASCII whitespace, modelling the regex whitespace class. -/
def isSpace (c : Char) : Bool :=
  c == ' ' || c == '\t' || c == '\n' || c == '\r' || c == Char.ofNat 11 || c == Char.ofNat 12

/-- The delimiter class of the URL regex: a single quote, a pipe, or a
double quote (the pipe is a literal inside a character class, not an
alternation). -/
def isQuote (c : Char) : Bool :=
  c == qSingle || c == '|' || c == qDouble

/-- Does the input start with the literal href? -/
def isPrefixHref (s : List Char) : Bool :=
  match s with
  | c1 :: c2 :: c3 :: c4 :: _ => c1 == 'h' && c2 == 'r' && c3 == 'e' && c4 == 'f'
  | _ => false

/-- Tail of the URL regex after the closing delimiter: the lazy star of
non-gt characters followed by the literal gt, which consumes up to the
first closing angle bracket. -/
def tailClose : List Char → Option (List Char)
  | [] => none
  | c :: rest => if c == '>' then some rest else tailClose rest

/-- Lazy scan for the closing delimiter of the capture group: at each
character, first try to read it as the closing delimiter; if the
continuation fails, let the lazy dot-star absorb it (the dot does not
match a newline). acc holds the capture so far, reversed. -/
def findClose (acc : List Char) : List Char → Option (String × List Char)
  | [] => none
  | c :: rest =>
    if isQuote c then
      match tailClose rest with
      | some rem => some (String.mk acc.reverse, rem)
      | none => if c == '\n' then none else findClose (c :: acc) rest
    else if c == '\n' then none else findClose (c :: acc) rest

/-- Greedy whitespace followed by the literal equals sign. -/
def afterEq (s : List Char) : Option (List Char) :=
  match s.dropWhile isSpace with
  | [] => none
  | c1 :: s2 => if c1 == '=' then some s2 else none

/-- Greedy whitespace followed by one opening delimiter character. -/
def afterQuote (s : List Char) : Option (Char × List Char) :=
  match s.dropWhile isSpace with
  | [] => none
  | q :: s4 => if isQuote q then some (q, s4) else none

/-- Continuation of the URL regex after the literal href: greedy
whitespace, an equals sign, greedy whitespace, an opening delimiter,
then the capture whose first character must not be a hash, a backslash
or a slash. -/
def afterHref (s : List Char) : Option (String × List Char) :=
  (afterEq s).bind fun s2 =>
    (afterQuote s2).bind fun qs4 =>
      match qs4.2 with
      | [] => none
      | c0 :: s5 =>
        if c0 == '#' || c0 == cBackslash || c0 == '/' then none
        else findClose [c0] s5

/-- Lazy scan between the literal "<a" and the literal href: at each
position first try href together with its continuation, else let the
lazy star of non-gt characters absorb one character. -/
def afterA : List Char → Option (String × List Char)
  | [] => none
  | c :: rest =>
    if isPrefixHref (c :: rest) then
      match afterHref ((c :: rest).drop 4) with
      | some r => some r
      | none => if c == '>' then none else afterA rest
    else if c == '>' then none else afterA rest

/-- Try to match the URL regex at the current position. -/
def tryAt : List Char → Option (String × List Char)
  | c1 :: c2 :: rest => if c1 == '<' && c2 == 'a' then afterA rest else none
  | _ => none

/-- captures_iter: successive non-overlapping leftmost matches. The fuel
argument (instantiated with the text length by get_urls_from) dominates
the number of scan steps, since every match consumes at least one
character. -/
def scanAux : Nat → List Char → List String
  | 0, _ => []
  | _ + 1, [] => []
  | fuel + 1, c :: rest =>
    match tryAt (c :: rest) with
    | some (cap, rem) => cap :: scanAux fuel rem
    | none => scanAux fuel rest

/-- get_urls_from: all captures of the URL regex over the text, in
document order. -/
def get_urls_from (text : String) : List String :=
  scanAux text.data.length text.data

/- ===================================================================
   Spec-side link extractor, for comparison with the code.
   Modelled from the spec: well-formed anchor constructs use either a
   single-quoted or a double-quoted target, with matching opening and
   closing quotes.
   =================================================================== -/

/-- Modelled from the spec: the delimiters a well-formed anchor
construct may use are exactly the single quote and the double quote. -/
def specIsQuote (c : Char) : Bool := c == qSingle || c == qDouble

/-- Modelled from the spec: scan for the closing quote of a well-formed
anchor construct, which must equal the opening quote q. -/
def specFindClose (q : Char) (acc : List Char) : List Char → Option (String × List Char)
  | [] => none
  | c :: rest =>
    if c == q then
      match tailClose rest with
      | some rem => some (String.mk acc.reverse, rem)
      | none => if c == '\n' then none else specFindClose q (c :: acc) rest
    else if c == '\n' then none else specFindClose q (c :: acc) rest

/-- Modelled from the spec: greedy whitespace followed by one opening
quote of a well-formed anchor construct. -/
def specAfterQuote (s : List Char) : Option (Char × List Char) :=
  match s.dropWhile isSpace with
  | [] => none
  | q :: s4 => if specIsQuote q then some (q, s4) else none

/-- Modelled from the spec: the href attribute of a well-formed anchor
construct: optional whitespace around the equals sign and a quoted
target whose first character is not a hash, a backslash or a slash. -/
def specAfterHref (s : List Char) : Option (String × List Char) :=
  (afterEq s).bind fun s2 =>
    (specAfterQuote s2).bind fun qs4 =>
      match qs4.2 with
      | [] => none
      | c0 :: s5 =>
        if c0 == '#' || c0 == cBackslash || c0 == '/' then none
        else specFindClose qs4.1 [c0] s5

/-- Modelled from the spec: attribute text between "<a" and href. -/
def specAfterA : List Char → Option (String × List Char)
  | [] => none
  | c :: rest =>
    if isPrefixHref (c :: rest) then
      match specAfterHref ((c :: rest).drop 4) with
      | some r => some r
      | none => if c == '>' then none else specAfterA rest
    else if c == '>' then none else specAfterA rest

/-- Modelled from the spec: a well-formed anchor construct starting at
the current position. -/
def specTryAt : List Char → Option (String × List Char)
  | c1 :: c2 :: rest => if c1 == '<' && c2 == 'a' then specAfterA rest else none
  | _ => none

/-- Modelled from the spec: scan for the targets of all well-formed
anchor constructs, in document order. -/
def specScanAux : Nat → List Char → List String
  | 0, _ => []
  | _ + 1, [] => []
  | fuel + 1, c :: rest =>
    match specTryAt (c :: rest) with
    | some (cap, rem) => cap :: specScanAux fuel rem
    | none => specScanAux fuel rest

/-- Modelled from the spec: the targets of the well-formed anchor
constructs contained in the text, in document order. -/
def specAnchorTargets (text : String) : List String :=
  specScanAux text.data.length text.data

/- ===================================================================
   Structured anchors, used to state the positive extractor property.
   =================================================================== -/

/-- A decomposed anchor construct: attribute text pre between "<a" and
href, whitespace around the equals sign, an opening and a closing
delimiter, a nonempty target t0 :: ts, and attribute text post before
the closing angle bracket. -/
structure Anchor where
  pre : List Char
  ws1 : List Char
  ws2 : List Char
  qo : Char
  qc : Char
  t0 : Char
  ts : List Char
  post : List Char

/-- The target of an anchor. -/
def Anchor.target (a : Anchor) : List Char := a.t0 :: a.ts

/-- The raw text of an anchor. -/
def Anchor.text (a : Anchor) : List Char :=
  ['<', 'a'] ++ a.pre ++ ['h', 'r', 'e', 'f'] ++ a.ws1 ++ ['='] ++ a.ws2 ++
    [a.qo] ++ (a.t0 :: a.ts) ++ [a.qc] ++ a.post ++ ['>']

/-- No occurrence of href starts strictly inside pre when pre is
followed by the literal href (occurrences may straddle the boundary, so
the check appends the first three characters h, r, e). -/
def noEarlyHref : List Char → Bool
  | [] => true
  | c :: rest => !(isPrefixHref ((c :: rest) ++ ['h', 'r', 'e'])) && noEarlyHref rest

/-- Side conditions under which an anchor is matched exactly as laid
out: no closing bracket and no early href occurrence before the real
href, genuine whitespace around the equals sign, recognized delimiters,
a target whose first character is legal and which contains no delimiter
and no newline, and trailing attribute text without a closing
bracket. -/
def Anchor.ok (a : Anchor) : Bool :=
  a.pre.all (fun c => !(c == '>')) &&
  noEarlyHref a.pre &&
  a.ws1.all isSpace &&
  a.ws2.all isSpace &&
  isQuote a.qo &&
  isQuote a.qc &&
  !(a.t0 == '#' || a.t0 == cBackslash || a.t0 == '/') &&
  a.target.all (fun c => !(isQuote c) && !(c == '\n')) &&
  a.post.all (fun c => !(c == '>'))

/-- Interleave separator texts and anchors into one text, ending with a
final separator. -/
def buildText : List (List Char × Anchor) → List Char → List Char
  | [], last => last
  | (sep, a) :: rest, last => sep ++ a.text ++ buildText rest last

/-- All separators are free of opening angle brackets and all anchors
satisfy their side conditions. -/
def segsOk (L : List (List Char × Anchor)) : Bool :=
  L.all (fun p => p.1.all (fun c => !(c == '<')) && p.2.ok)

/- ===================================================================
   Concrete data for the example claims and witnesses.
   =================================================================== -/

/-- The corpus of the orphan example in the spec. -/
def exampleCorpus : List (String × List String) :=
  [("index", ["a"]), ("a", ["b"]), ("b", []), ("c", [])]

/-- First anchor of the repository regex test: a single-quoted
traplinked URL. -/
def anchorTrapl : Anchor :=
  { pre := [' '], ws1 := [], ws2 := [], qo := qSingle, qc := qSingle,
    t0 := 'w', ts := "ww.traplinked.com".data, post := [] }

/-- Second anchor of the repository regex test: a double-quoted URL with
extra whitespace around the equals sign. -/
def anchorChip : Anchor :=
  { pre := [' ', ' '], ws1 := [' '], ws2 := [' ', ' ', ' '], qo := qDouble, qc := qDouble,
    t0 := 'w', ts := "ww.chip.de".data, post := [] }

/-- The segments of the repository regex test text. -/
def exampleSegs : List (List Char × Anchor) :=
  [([], anchorTrapl), (", some other text, ".data, anchorChip)]

/- ===================================================================
   Lemmas: node and edge membership of make_page_graph
   =================================================================== -/

lemma mem_nodes_addNode {g : PageGraph} {n m : String} :
    m ∈ (addNode g n).nodes ↔ m ∈ g.nodes ∨ m = n := by
  unfold addNode
  split
  · constructor
    · exact Or.inl
    · rintro (h | rfl) <;> assumption
  · simp [List.mem_append]

lemma edges_addNode (g : PageGraph) (n : String) : (addNode g n).edges = g.edges := by
  unfold addNode
  split <;> rfl

lemma nodes_addEdge (g : PageGraph) (a b : String) :
    (addEdge g a b).nodes = (addNode (addNode g a) b).nodes := by
  unfold addEdge
  split <;> rfl

lemma mem_nodes_addEdge {g : PageGraph} {a b m : String} :
    m ∈ (addEdge g a b).nodes ↔ m ∈ g.nodes ∨ m = a ∨ m = b := by
  rw [nodes_addEdge, mem_nodes_addNode, mem_nodes_addNode, or_assoc]

lemma mem_edges_addEdge {g : PageGraph} {a b : String} {e : String × String} :
    e ∈ (addEdge g a b).edges ↔ e ∈ g.edges ∨ e = (a, b) := by
  unfold addEdge
  split
  · rename_i h
    rw [edges_addNode, edges_addNode] at h ⊢
    constructor
    · exact Or.inl
    · rintro (h2 | rfl)
      · exact h2
      · exact h
  · show e ∈ (addNode (addNode g a) b).edges ++ [(a, b)] ↔ _
    rw [edges_addNode, edges_addNode]
    simp [List.mem_append]

lemma addTargets_cons (k v : String) (vs : List String) (g : PageGraph) :
    addTargets k g (v :: vs) = addTargets k (addEdge (addNode g v) k v) vs := rfl

lemma mem_nodes_addTargets {k m : String} :
    ∀ (vs : List String) (g : PageGraph), k ∈ g.nodes →
      (m ∈ (addTargets k g vs).nodes ↔ m ∈ g.nodes ∨ m ∈ vs)
  | [], g, _ => by simp [addTargets]
  | v :: vs, g, hk => by
    rw [addTargets_cons]
    have hk' : k ∈ (addEdge (addNode g v) k v).nodes := by
      rw [mem_nodes_addEdge]
      exact Or.inr (Or.inl rfl)
    rw [mem_nodes_addTargets vs _ hk', mem_nodes_addEdge, mem_nodes_addNode]
    constructor
    · rintro (((h | rfl) | (rfl | rfl)) | h)
      · exact Or.inl h
      · exact Or.inr (List.mem_cons_self _ _)
      · exact Or.inl hk
      · exact Or.inr (List.mem_cons_self _ _)
      · exact Or.inr (List.mem_cons_of_mem _ h)
    · rintro (h | h)
      · exact Or.inl (Or.inl (Or.inl h))
      · rcases List.mem_cons.mp h with rfl | h
        · exact Or.inl (Or.inl (Or.inr rfl))
        · exact Or.inr h

lemma mem_edges_addTargets {k : String} {e : String × String} :
    ∀ (vs : List String) (g : PageGraph),
      (e ∈ (addTargets k g vs).edges ↔ e ∈ g.edges ∨ ∃ v ∈ vs, e = (k, v))
  | [], g => by simp [addTargets]
  | v :: vs, g => by
    rw [addTargets_cons, mem_edges_addTargets vs, mem_edges_addEdge, edges_addNode]
    constructor
    · rintro ((h | rfl) | ⟨w, hw, rfl⟩)
      · exact Or.inl h
      · exact Or.inr ⟨v, List.mem_cons_self _ _, rfl⟩
      · exact Or.inr ⟨w, List.mem_cons_of_mem _ hw, rfl⟩
    · rintro (h | ⟨w, hw, rfl⟩)
      · exact Or.inl (Or.inl h)
      · rcases List.mem_cons.mp hw with rfl | hw
        · exact Or.inl (Or.inr rfl)
        · exact Or.inr ⟨w, hw, rfl⟩

lemma mem_nodes_addEntry {g : PageGraph} {kv : String × List String} {m : String} :
    m ∈ (addEntry g kv).nodes ↔ m ∈ g.nodes ∨ m = kv.1 ∨ m ∈ kv.2 := by
  unfold addEntry
  rw [mem_nodes_addTargets kv.2 _ (mem_nodes_addNode.mpr (Or.inr rfl)),
    mem_nodes_addNode, or_assoc]

lemma mem_edges_addEntry {g : PageGraph} {kv : String × List String} {e : String × String} :
    e ∈ (addEntry g kv).edges ↔ e ∈ g.edges ∨ ∃ v ∈ kv.2, e = (kv.1, v) := by
  unfold addEntry
  rw [mem_edges_addTargets, edges_addNode]

lemma mem_nodes_foldl {m : String} :
    ∀ (data : List (String × List String)) (g : PageGraph),
      (m ∈ (data.foldl addEntry g).nodes ↔
        m ∈ g.nodes ∨ ∃ kv ∈ data, m = kv.1 ∨ m ∈ kv.2)
  | [], g => by simp
  | kv :: data, g => by
    rw [List.foldl_cons, mem_nodes_foldl data]
    rw [mem_nodes_addEntry]
    constructor
    · rintro ((h | h) | ⟨kv2, h2, h3⟩)
      · exact Or.inl h
      · exact Or.inr ⟨kv, List.mem_cons_self _ _, h⟩
      · exact Or.inr ⟨kv2, List.mem_cons_of_mem _ h2, h3⟩
    · rintro (h | ⟨kv2, h2, h3⟩)
      · exact Or.inl (Or.inl h)
      · rcases List.mem_cons.mp h2 with rfl | h2
        · exact Or.inl (Or.inr h3)
        · exact Or.inr ⟨kv2, h2, h3⟩

lemma mem_edges_foldl {e : String × String} :
    ∀ (data : List (String × List String)) (g : PageGraph),
      (e ∈ (data.foldl addEntry g).edges ↔
        e ∈ g.edges ∨ ∃ kv ∈ data, ∃ v ∈ kv.2, e = (kv.1, v))
  | [], g => by simp
  | kv :: data, g => by
    rw [List.foldl_cons, mem_edges_foldl data]
    rw [mem_edges_addEntry]
    constructor
    · rintro ((h | h) | ⟨kv2, h2, h3⟩)
      · exact Or.inl h
      · exact Or.inr ⟨kv, List.mem_cons_self _ _, h⟩
      · exact Or.inr ⟨kv2, List.mem_cons_of_mem _ h2, h3⟩
    · rintro (h | ⟨kv2, h2, h3⟩)
      · exact Or.inl (Or.inl h)
      · rcases List.mem_cons.mp h2 with rfl | h2
        · exact Or.inl (Or.inr h3)
        · exact Or.inr ⟨kv2, h2, h3⟩

lemma mem_nodes_make_page_graph {data : List (String × List String)} {m : String} :
    m ∈ (make_page_graph data).nodes ↔ ∃ kv ∈ data, m = kv.1 ∨ m ∈ kv.2 := by
  unfold make_page_graph
  rw [mem_nodes_foldl]
  simp

lemma mem_edges_make_page_graph {data : List (String × List String)} {e : String × String} :
    e ∈ (make_page_graph data).edges ↔ ∃ kv ∈ data, ∃ v ∈ kv.2, e = (kv.1, v) := by
  unfold make_page_graph
  rw [mem_edges_foldl]
  simp

/-- C3: every identifier appearing as a referenced target in some value
sequence of the linkage map is a node of the graph built by
make_page_graph, and if it never occurs as a key of the map (a dangling
reference) it has no outgoing edge. -/
theorem claim_C3 (data : List (String × List String)) (t : String)
    (h : ∃ kv ∈ data, t ∈ kv.2) :
    t ∈ (make_page_graph data).nodes ∧
      ((∀ kv ∈ data, kv.1 ≠ t) → ∀ b, (t, b) ∉ (make_page_graph data).edges) := by
  constructor
  · rcases h with ⟨kv, hkv, ht⟩
    exact mem_nodes_make_page_graph.mpr ⟨kv, hkv, Or.inr ht⟩
  · intro hnk b hb
    rcases mem_edges_make_page_graph.mp hb with ⟨kv, hkv, v, hv, hev⟩
    exact hnk kv hkv (congrArg Prod.fst hev).symm

/-- Witness for C3 at the concrete map with single entry a maps-to [b]:
the dangling target b is a node and has no outgoing edge to a. -/
theorem claim_C3_witness :
    "b" ∈ (make_page_graph [("a", ["b"])]).nodes ∧
      ("b", "a") ∉ (make_page_graph [("a", ["b"])]).edges := by
  have h := claim_C3 [("a", ["b"])] "b" ⟨("a", ["b"]), by simp, by simp⟩
  exact ⟨h.1, h.2 (by simp) "a"⟩

/-- C8: duplicate targets inside a value sequence are idempotent for the
graph: deduplicating every value sequence of the linkage map changes
neither the node set nor the edge set of the graph make_page_graph
builds. -/
theorem claim_C8 (data : List (String × List String)) :
    (make_page_graph (dedupValues data)).nodes.toFinset =
        (make_page_graph data).nodes.toFinset ∧
      (make_page_graph (dedupValues data)).edges.toFinset =
        (make_page_graph data).edges.toFinset := by
  constructor
  · ext m
    simp only [List.mem_toFinset, mem_nodes_make_page_graph, dedupValues, List.mem_map]
    constructor
    · rintro ⟨kv, ⟨kv0, hkv0, rfl⟩, h⟩
      exact ⟨kv0, hkv0, by simpa [List.mem_dedup] using h⟩
    · rintro ⟨kv0, hkv0, h⟩
      exact ⟨(kv0.1, kv0.2.dedup), ⟨kv0, hkv0, rfl⟩, by simpa [List.mem_dedup] using h⟩
  · ext e
    simp only [List.mem_toFinset, mem_edges_make_page_graph, dedupValues, List.mem_map]
    constructor
    · rintro ⟨kv, ⟨kv0, hkv0, rfl⟩, v, hv, he⟩
      exact ⟨kv0, hkv0, v, by simpa [List.mem_dedup] using hv, he⟩
    · rintro ⟨kv0, hkv0, v, hv, he⟩
      exact ⟨(kv0.1, kv0.2.dedup), ⟨kv0, hkv0, rfl⟩, v, by simpa [List.mem_dedup] using hv, he⟩

/- ===================================================================
   Lemmas: the depth-first walk of find_orphans
   =================================================================== -/

lemma mem_neighbors {g : PageGraph} {n w : String} :
    w ∈ neighbors g n ↔ (n, w) ∈ g.edges := by
  unfold neighbors
  rw [List.mem_map]
  constructor
  · rintro ⟨e, he, rfl⟩
    rcases List.mem_filter.mp he with ⟨hmem, hfst⟩
    have : e.1 = n := of_decide_eq_true hfst
    rw [show (n, e.2) = e from by rw [← this]]
    exact hmem
  · intro h
    exact ⟨(n, w), List.mem_filter.mpr ⟨h, by simp⟩, rfl⟩

lemma neighbors_subset_targetsOf {g : PageGraph} {n w : String}
    (h : w ∈ neighbors g n) : w ∈ targetsOf g :=
  List.mem_map.mpr ⟨(n, w), mem_neighbors.mp h, rfl⟩

lemma subset_dfsLoop (g : PageGraph) :
    ∀ (fuel : Nat) (stack visited : List String),
      ∀ x ∈ visited, x ∈ dfsLoop g fuel stack visited
  | 0, _, visited => by intro x hx; exact hx
  | fuel + 1, [], visited => by intro x hx; exact hx
  | fuel + 1, n :: rest, visited => by
    intro x hx
    by_cases hn : n ∈ visited
    · rw [dfsLoop, if_pos hn]
      exact subset_dfsLoop g fuel rest visited x hx
    · rw [dfsLoop, if_neg hn]
      exact subset_dfsLoop g fuel _ _ x (List.mem_cons_of_mem _ hx)

lemma dfsLoop_nodup (g : PageGraph) :
    ∀ (fuel : Nat) (stack visited : List String),
      visited.Nodup → (dfsLoop g fuel stack visited).Nodup
  | 0, _, visited => fun h => h
  | fuel + 1, [], visited => fun h => h
  | fuel + 1, n :: rest, visited => fun h => by
    by_cases hn : n ∈ visited
    · rw [dfsLoop, if_pos hn]
      exact dfsLoop_nodup g fuel rest visited h
    · rw [dfsLoop, if_neg hn]
      exact dfsLoop_nodup g fuel _ _ (List.nodup_cons.mpr ⟨hn, h⟩)

lemma dfsLoop_sound (g : PageGraph) :
    ∀ (fuel : Nat) (stack visited : List String),
      ∀ m ∈ dfsLoop g fuel stack visited,
        m ∈ visited ∨ ∃ s ∈ stack, Relation.ReflTransGen (edgeRel g) s m
  | 0, _, visited => fun m hm => Or.inl hm
  | fuel + 1, [], visited => fun m hm => Or.inl hm
  | fuel + 1, n :: rest, visited => fun m hm => by
    by_cases hn : n ∈ visited
    · rw [dfsLoop, if_pos hn] at hm
      rcases dfsLoop_sound g fuel rest visited m hm with h | ⟨s, hs, hr⟩
      · exact Or.inl h
      · exact Or.inr ⟨s, List.mem_cons_of_mem _ hs, hr⟩
    · rw [dfsLoop, if_neg hn] at hm
      rcases dfsLoop_sound g fuel _ _ m hm with h | ⟨s, hs, hr⟩
      · rcases List.mem_cons.mp h with rfl | h
        · exact Or.inr ⟨m, List.mem_cons_self _ _, Relation.ReflTransGen.refl⟩
        · exact Or.inl h
      · rcases List.mem_append.mp hs with hs | hs
        · rcases List.mem_filter.mp hs with ⟨hsn, _⟩
          exact Or.inr ⟨n, List.mem_cons_self _ _,
            Relation.ReflTransGen.head (mem_neighbors.mp hsn) hr⟩
        · exact Or.inr ⟨s, List.mem_cons_of_mem _ hs, hr⟩

lemma length_le_card_of_nodup_subset {l L : List String}
    (hnd : l.Nodup) (hsub : ∀ x ∈ l, x ∈ L) : l.length ≤ L.toFinset.card := by
  calc l.length = l.toFinset.card := (List.toFinset_card_of_nodup hnd).symm
    _ ≤ L.toFinset.card := by
        apply Finset.card_le_card
        intro x hx
        exact List.mem_toFinset.mpr (hsub x (List.mem_toFinset.mp hx))

lemma dfsLoop_master (g : PageGraph) (r : String) :
    ∀ (fuel : Nat) (stack visited : List String),
      (∀ v ∈ visited, ∀ w, (v, w) ∈ g.edges → w ∈ visited ∨ w ∈ stack) →
      visited.Nodup →
      (∀ x ∈ stack, x ∈ r :: targetsOf g) →
      (∀ x ∈ visited, x ∈ r :: targetsOf g) →
      stack.length +
          ((r :: targetsOf g).toFinset.card - visited.length) * (g.edges.length + 1) ≤ fuel →
      (∀ s ∈ stack, s ∈ dfsLoop g fuel stack visited) ∧
      (∀ v ∈ dfsLoop g fuel stack visited, ∀ w, (v, w) ∈ g.edges →
        w ∈ dfsLoop g fuel stack visited) ∧
      dfsLoop g (fuel + 1) stack visited = dfsLoop g fuel stack visited := by
  intro fuel
  induction fuel with
  | zero =>
    intro stack visited hInv hnd hstA hvisA hb
    have hstack : stack = [] := by
      cases stack with
      | nil => rfl
      | cons a l =>
        exfalso
        have h1 : (a :: l).length ≤ 0 := le_trans (Nat.le_add_right _ _) hb
        simp at h1
    subst hstack
    refine ⟨by simp, ?_, rfl⟩
    intro v hv w hw
    show w ∈ visited
    rcases hInv v hv w hw with h | h
    · exact h
    · simp at h
  | succ fuel IH =>
    intro stack visited hInv hnd hstA hvisA hb
    cases stack with
    | nil =>
      refine ⟨by simp, ?_, rfl⟩
      intro v hv w hw
      show w ∈ visited
      rcases hInv v hv w hw with h | h
      · exact h
      · simp at h
    | cons n rest =>
      by_cases hn : n ∈ visited
      · have hInv' : ∀ v ∈ visited, ∀ w, (v, w) ∈ g.edges → w ∈ visited ∨ w ∈ rest := by
          intro v hv w hw
          rcases hInv v hv w hw with h | h
          · exact Or.inl h
          · rcases List.mem_cons.mp h with rfl | h
            · exact Or.inl hn
            · exact Or.inr h
        have hb' : rest.length +
            ((r :: targetsOf g).toFinset.card - visited.length) * (g.edges.length + 1)
              ≤ fuel := by
          have hlen3 : (n :: rest).length = rest.length + 1 := rfl
          rw [hlen3] at hb
          set t := ((r :: targetsOf g).toFinset.card - visited.length) * (g.edges.length + 1)
            with ht
          omega
        have hst' : ∀ x ∈ rest, x ∈ r :: targetsOf g :=
          fun x hx => hstA x (List.mem_cons_of_mem _ hx)
        obtain ⟨i1, i2, i3⟩ := IH rest visited hInv' hnd hst' hvisA hb'
        have heq : dfsLoop g (fuel + 1) (n :: rest) visited = dfsLoop g fuel rest visited := by
          rw [dfsLoop, if_pos hn]
        refine ⟨?_, ?_, ?_⟩
        · intro s hs
          rcases List.mem_cons.mp hs with rfl | hs
          · rw [heq]
            exact subset_dfsLoop g fuel rest visited s hn
          · rw [heq]
            exact i1 s hs
        · rw [heq]
          exact i2
        · show dfsLoop g (fuel + 1 + 1) (n :: rest) visited = _
          rw [dfsLoop, if_pos hn, i3, heq]
      · have hnA : n ∈ r :: targetsOf g := hstA n (List.mem_cons_self _ _)
        have hndn : (n :: visited).Nodup := List.nodup_cons.mpr ⟨hn, hnd⟩
        have hsubn : ∀ x ∈ n :: visited, x ∈ r :: targetsOf g := by
          intro x hx
          rcases List.mem_cons.mp hx with rfl | hx
          · exact hnA
          · exact hvisA x hx
        have hlenle : visited.length + 1 ≤ (r :: targetsOf g).toFinset.card := by
          have h2 := length_le_card_of_nodup_subset hndn hsubn
          simpa using h2
        set push := (neighbors g n).filter (fun w => decide (w ∉ visited)) with hpushdef
        have hpushlen : push.length ≤ g.edges.length := by
          calc push.length ≤ (neighbors g n).length := List.length_filter_le _ _
            _ ≤ g.edges.length := by
                unfold neighbors
                rw [List.length_map]
                exact List.length_filter_le _ _
        have hInv' : ∀ v ∈ n :: visited, ∀ w, (v, w) ∈ g.edges →
            w ∈ n :: visited ∨ w ∈ push ++ rest := by
          intro v hv w hw
          rcases List.mem_cons.mp hv with rfl | hv
          · by_cases hwv : w ∈ visited
            · exact Or.inl (List.mem_cons_of_mem _ hwv)
            · refine Or.inr (List.mem_append.mpr (Or.inl ?_))
              rw [hpushdef]
              exact List.mem_filter.mpr ⟨mem_neighbors.mpr hw, by simpa using hwv⟩
          · rcases hInv v hv w hw with h | h
            · exact Or.inl (List.mem_cons_of_mem _ h)
            · rcases List.mem_cons.mp h with rfl | h
              · exact Or.inl (List.mem_cons_self _ _)
              · exact Or.inr (List.mem_append.mpr (Or.inr h))
        have hst' : ∀ x ∈ push ++ rest, x ∈ r :: targetsOf g := by
          intro x hx
          rcases List.mem_append.mp hx with hx | hx
          · rw [hpushdef] at hx
            exact List.mem_cons_of_mem _ (neighbors_subset_targetsOf (List.mem_filter.mp hx).1)
          · exact hstA x (List.mem_cons_of_mem _ hx)
        have hb' : (push ++ rest).length +
            ((r :: targetsOf g).toFinset.card - (n :: visited).length) * (g.edges.length + 1)
              ≤ fuel := by
          have hsplit : ((r :: targetsOf g).toFinset.card - visited.length)
              = ((r :: targetsOf g).toFinset.card - (visited.length + 1)) + 1 := by omega
          rw [hsplit, Nat.add_mul, Nat.one_mul] at hb
          rw [List.length_append]
          have hlen2 : (n :: visited).length = visited.length + 1 := rfl
          rw [hlen2]
          have hlen3 : (n :: rest).length = rest.length + 1 := rfl
          rw [hlen3] at hb
          set t := ((r :: targetsOf g).toFinset.card - (visited.length + 1)) * (g.edges.length + 1)
            with ht
          omega
        obtain ⟨i1, i2, i3⟩ := IH (push ++ rest) (n :: visited) hInv' hndn hst' hsubn hb'
        have heq : dfsLoop g (fuel + 1) (n :: rest) visited
            = dfsLoop g fuel (push ++ rest) (n :: visited) := by
          rw [dfsLoop, if_neg hn]
        refine ⟨?_, ?_, ?_⟩
        · intro s hs
          rcases List.mem_cons.mp hs with rfl | hs
          · rw [heq]
            exact subset_dfsLoop g fuel _ _ s (List.mem_cons_self _ _)
          · rw [heq]
            exact i1 s (List.mem_append.mpr (Or.inr hs))
        · rw [heq]
          exact i2
        · show dfsLoop g (fuel + 1 + 1) (n :: rest) visited = _
          rw [dfsLoop, if_neg hn, i3, heq]

lemma dfsFuel_bound (g : PageGraph) :
    (["index"] : List String).length +
        (("index" :: targetsOf g).toFinset.card - ([] : List String).length) *
          (g.edges.length + 1) ≤ dfsFuel g := by
  unfold dfsFuel
  simp

lemma dfs_visited_iff (g : PageGraph) (m : String) :
    m ∈ dfsLoop g (dfsFuel g) ["index"] [] ↔
      Relation.ReflTransGen (edgeRel g) "index" m := by
  constructor
  · intro hm
    rcases dfsLoop_sound g (dfsFuel g) ["index"] [] m hm with h | ⟨s, hs, hr⟩
    · simp at h
    · rcases List.mem_cons.mp hs with rfl | hs
      · exact hr
      · simp at hs
  · intro hr
    obtain ⟨i1, i2, _⟩ := dfsLoop_master g "index" (dfsFuel g) ["index"] []
      (by intro v hv; simp at hv) List.nodup_nil
      (by intro x hx; rcases List.mem_cons.mp hx with rfl | hx
          · exact List.mem_cons_self _ _
          · simp at hx)
      (by intro x hx; simp at hx)
      (dfsFuel_bound g)
    induction hr with
    | refl => exact i1 "index" (List.mem_cons_self _ _)
    | tail hab hbc ih => exact i2 _ ih _ hbc

lemma mem_find_orphans {g : PageGraph} {n : String} :
    n ∈ find_orphans g ↔
      n ∈ g.nodes ∧ ¬ Relation.ReflTransGen (edgeRel g) "index" n := by
  unfold find_orphans
  rw [List.mem_toFinset, List.mem_filter]
  simp only [decide_eq_true_eq]
  rw [dfs_visited_iff]

/-- C1: find_orphans returns exactly the graph nodes that are not
reachable from the node "index" by a directed walk, and on the graph
built from the example corpus with entries index maps-to [a], a
maps-to [b], b maps-to [], c maps-to [], the result is the set
containing only c. -/
theorem claim_C1 :
    (∀ (g : PageGraph) (n : String),
        n ∈ find_orphans g ↔
          n ∈ g.nodes ∧ ¬ Relation.ReflTransGen (edgeRel g) "index" n) ∧
      find_orphans (make_page_graph exampleCorpus) = {"c"} := by
  constructor
  · intro g n
    exact mem_find_orphans
  · decide

/-- C2 counterexample: find_orphans does not take the root as an input;
on the graph built from the single entry a maps-to [index], its result
is not the set of nodes unreachable from the root choice a, refuting
the claim that for every root identifier r the function computes the
set of nodes not reachable from r. -/
theorem claim_C2_counterexample :
    ¬ ("a" ∈ find_orphans (make_page_graph [("a", ["index"])]) ↔
        ("a" ∈ (make_page_graph [("a", ["index"])]).nodes ∧
          ¬ Relation.ReflTransGen (edgeRel (make_page_graph [("a", ["index"])])) "a" "a")) := by
  intro h
  have hmem : "a" ∈ find_orphans (make_page_graph [("a", ["index"])]) := by decide
  exact (h.mp hmem).2 Relation.ReflTransGen.refl

/-- C2 amended: the root identifier of the reachability analysis is not
an input of find_orphans; it is the hardcoded constant "index", and for
every PageGraph the function returns exactly the nodes not reachable
from "index". -/
theorem claim_C2_amended (g : PageGraph) (n : String) :
    n ∈ find_orphans g ↔
      n ∈ g.nodes ∧ ¬ Relation.ReflTransGen (edgeRel g) "index" n :=
  mem_find_orphans

/-- C4: on a graph none of whose edges dangle outside the node list (as
holds for every GraphMap) and in which the root "index" does not occur
as a node, find_orphans returns the set of all graph nodes, as a normal
return value. -/
theorem claim_C4 (g : PageGraph)
    (hwf : ∀ e ∈ g.edges, e.1 ∈ g.nodes ∧ e.2 ∈ g.nodes)
    (hroot : "index" ∉ g.nodes) :
    find_orphans g = g.nodes.toFinset := by
  ext n
  rw [mem_find_orphans, List.mem_toFinset]
  constructor
  · exact fun h => h.1
  · intro hn
    refine ⟨hn, fun hr => ?_⟩
    rcases Relation.ReflTransGen.cases_head hr with h | ⟨c, hic, _⟩
    · exact hroot (h ▸ hn)
    · exact hroot (hwf _ hic).1

/-- Witness for C4: a concrete graph without the root node, for which
find_orphans reports every node. -/
theorem claim_C4_witness :
    find_orphans (make_page_graph [("a", ["b"]), ("c", [])]) =
      (make_page_graph [("a", ["b"]), ("c", [])]).nodes.toFinset :=
  claim_C4 (make_page_graph [("a", ["b"]), ("c", [])]) (by decide) (by decide)

/-- C9: the depth-first walk of find_orphans terminates on every finite
PageGraph, cyclic ones included: with the fuel find_orphans supplies the
stack is already exhausted, so any additional fuel leaves the visited
set unchanged, and the walk records each node at most once. -/
theorem claim_C9 (g : PageGraph) :
    (∀ extra : Nat, dfsLoop g (dfsFuel g + extra) ["index"] [] =
        dfsLoop g (dfsFuel g) ["index"] []) ∧
      (dfsLoop g (dfsFuel g) ["index"] []).Nodup := by
  constructor
  · intro extra
    induction extra with
    | zero => rfl
    | succ extra ih =>
      have hone : ∀ k : Nat, dfsFuel g ≤ k →
          dfsLoop g (k + 1) ["index"] [] = dfsLoop g k ["index"] [] := by
        intro k hk
        obtain ⟨_, _, i3⟩ := dfsLoop_master g "index" k ["index"] []
          (by intro v hv; simp at hv) List.nodup_nil
          (by intro x hx; rcases List.mem_cons.mp hx with rfl | hx
              · exact List.mem_cons_self _ _
              · simp at hx)
          (by intro x hx; simp at hx)
          (le_trans (dfsFuel_bound g) hk)
        exact i3
      calc dfsLoop g (dfsFuel g + (extra + 1)) ["index"] []
          = dfsLoop g ((dfsFuel g + extra) + 1) ["index"] [] := by rw [Nat.add_succ]
        _ = dfsLoop g (dfsFuel g + extra) ["index"] [] :=
            hone _ (Nat.le_add_right _ _)
        _ = dfsLoop g (dfsFuel g) ["index"] [] := ih
  · exact dfsLoop_nodup g (dfsFuel g) ["index"] [] List.nodup_nil

/- ===================================================================
   Lemmas: remove_trailing_slash
   =================================================================== -/

lemma data_append_eq (s t : String) : (s ++ t).data = s.data ++ t.data := by
  rcases s with ⟨l⟩
  rcases t with ⟨m⟩
  rfl

lemma mk_data_eq (s : String) : String.mk s.data = s := by
  rcases s with ⟨l⟩
  rfl

lemma string_eq_of_data {s t : String} (h : s.data = t.data) : s = t := by
  rcases s with ⟨l⟩
  rcases t with ⟨m⟩
  cases h
  rfl

lemma remove_trailing_slash_concat (t : String) :
    remove_trailing_slash (t ++ "/") = t := by
  unfold remove_trailing_slash
  rw [data_append_eq, show ("/" : String).data = ['/'] from rfl,
    List.getLast?_concat, if_pos rfl, List.dropLast_concat, mk_data_eq]

/-- C7: appending one slash and trimming gives the string back (exactly
one trailing separator is removed), a string ending in two slashes
keeps one of them (repeated separators are not collapsed), and a string
not ending in a slash is returned unchanged. -/
theorem claim_C7 (s : String) :
    remove_trailing_slash (s ++ "/") = s ∧
      remove_trailing_slash (s ++ "//") = s ++ "/" ∧
      (s.data.getLast? ≠ some '/' → remove_trailing_slash s = s) := by
  refine ⟨remove_trailing_slash_concat s, ?_, ?_⟩
  · have hsplit : s ++ "//" = (s ++ "/") ++ "/" := by
      apply string_eq_of_data
      rw [data_append_eq, data_append_eq, data_append_eq]
      rw [show ("//" : String).data = ['/', '/'] from rfl,
        show ("/" : String).data = ['/'] from rfl, List.append_assoc]
      simp
    rw [hsplit, remove_trailing_slash_concat]
  · intro h
    unfold remove_trailing_slash
    rw [if_neg h]

/-- Witness for C7 at the inputs of the repository test: one trailing
slash is stripped, double slashes keep one, and a slash-free string is
unchanged. -/
theorem claim_C7_witness :
    remove_trailing_slash ("test" ++ "/") = "test" ∧
      remove_trailing_slash ("t/e/s/t" ++ "//") = "t/e/s/t" ++ "/" ∧
      remove_trailing_slash "test" = "test" :=
  ⟨(claim_C7 "test").1, (claim_C7 "t/e/s/t").2.1, (claim_C7 "test").2.2 (by decide)⟩

/- ===================================================================
   Lemmas: filter_prefix
   =================================================================== -/

lemma matchPrefixAt_nil : matchPrefixAt [] = none := rfl

lemma replaceFirst_cons_none {c : Char} {l : List Char}
    (h : matchPrefixAt (c :: l) = none) :
    replaceFirst (c :: l) = c :: replaceFirst l := by
  simp only [replaceFirst, h]

lemma replaceFirst_append (pre rest rem : List Char)
    (hm : matchPrefixAt rest = some rem) :
    matchFreePre pre rest = true → replaceFirst (pre ++ rest) = pre ++ rem := by
  induction pre with
  | nil =>
    intro _
    cases rest with
    | nil => rw [matchPrefixAt_nil] at hm; cases hm
    | cons c r => simp only [List.nil_append, replaceFirst, hm]
  | cons c p ih =>
    intro hfree
    rw [matchFreePre] at hfree
    rcases Bool.and_eq_true_iff.mp hfree with ⟨h1, h2⟩
    have hnone : matchPrefixAt (c :: (p ++ rest)) = none := by
      rcases h3 : matchPrefixAt (c :: (p ++ rest)) with _ | v
      · rfl
      · exfalso
        rw [List.cons_append] at h1
        rw [h3] at h1
        simp at h1
    simp only [List.cons_append]
    rw [replaceFirst_cons_none hnone, ih h2]

lemma replaceFirst_of_no_match (l : List Char) (h : hasMatch l = false) :
    replaceFirst l = l := by
  induction l with
  | nil => rfl
  | cons c rest ih =>
    rw [hasMatch] at h
    rcases Bool.or_eq_false_iff.mp h with ⟨h1, h2⟩
    have hnone : matchPrefixAt (c :: rest) = none := by
      rcases h3 : matchPrefixAt (c :: rest) with _ | v
      · rfl
      · rw [h3] at h1
        simp at h1
    simp only [replaceFirst, hnone]
    rw [ih h2]

/-- C6 counterexample: the input does not begin with the prefix pattern
(the pattern does not match at position zero), yet filter_prefix does
not return it unchanged: the pattern occurrence in the middle of the
string is removed. -/
theorem claim_C6_counterexample :
    matchPrefixAt "a-http://www.traplinked.com/b".data = none ∧
      filter_prefix "a-http://www.traplinked.com/b" = "a-b" ∧
      filter_prefix "a-http://www.traplinked.com/b" ≠ "a-http://www.traplinked.com/b" := by
  refine ⟨by decide, by decide, by decide⟩

/-- C6 amended: filter_prefix removes the leftmost match of the prefix
pattern wherever it occurs in the string, not only at the front: if the
string splits as pre followed by rest, the pattern matches at the start
of rest, and no match starts inside pre, the result is pre followed by
the remainder after the match (so a leading match is removed from the
front); and a string in which the pattern matches nowhere is returned
unchanged. -/
theorem claim_C6_amended :
    (∀ pre rest rem : List Char, matchPrefixAt rest = some rem →
        matchFreePre pre rest = true →
        filter_prefix (String.mk (pre ++ rest)) = String.mk (pre ++ rem)) ∧
      (∀ t : String, hasMatch t.data = false → filter_prefix t = t) := by
  constructor
  · intro pre rest rem hm hfree
    unfold filter_prefix
    rw [show (String.mk (pre ++ rest)).data = pre ++ rest from rfl]
    rw [replaceFirst_append pre rest rem hm hfree]
  · intro t ht
    unfold filter_prefix
    rw [replaceFirst_of_no_match t.data ht, mk_data_eq]

/-- Witness for C6 at the concrete mid-string occurrence and at a
match-free string. -/
theorem claim_C6_witness :
    filter_prefix (String.mk ("a-".data ++ "http://www.traplinked.com/b".data)) =
        String.mk ("a-".data ++ "b".data) ∧
      filter_prefix "hello" = "hello" :=
  ⟨claim_C6_amended.1 "a-".data "http://www.traplinked.com/b".data "b".data
      (by decide) (by decide),
    claim_C6_amended.2 "hello" (by decide)⟩

/- ===================================================================
   Lemmas: the link extractor
   =================================================================== -/

lemma length_dropWhile_le (p : Char → Bool) (l : List Char) :
    (l.dropWhile p).length ≤ l.length := by
  induction l with
  | nil => simp
  | cons c rest ih =>
    rw [List.dropWhile_cons]
    split
    · exact le_trans ih (by simp)
    · simp

lemma tailClose_length : ∀ (s rem : List Char), tailClose s = some rem → rem.length < s.length
  | [], rem => by intro h; cases h
  | c :: rest, rem => by
    intro h
    rw [tailClose] at h
    split at h
    · cases h
      exact Nat.lt_succ_self _
    · exact Nat.lt_trans (tailClose_length rest rem h) (Nat.lt_succ_self _)

lemma findClose_length : ∀ (s acc : List Char) (cap : String) (rem : List Char),
    findClose acc s = some (cap, rem) → rem.length < s.length
  | [], _, _, _ => by intro h; cases h
  | c :: rest, acc, cap, rem => by
    intro h
    rw [findClose] at h
    split at h
    · split at h
      · rename_i rem0 heq
        cases h
        exact Nat.lt_trans (tailClose_length rest _ heq) (Nat.lt_succ_self _)
      · split at h
        · cases h
        · exact Nat.lt_trans (findClose_length rest _ _ _ h) (Nat.lt_succ_self _)
    · split at h
      · cases h
      · exact Nat.lt_trans (findClose_length rest _ _ _ h) (Nat.lt_succ_self _)

lemma afterEq_length (s s2 : List Char) (h : afterEq s = some s2) :
    s2.length < s.length := by
  rw [afterEq] at h
  split at h
  · cases h
  · rename_i c1 s3 heq
    split at h
    case isFalse => cases h
    cases h
    have l1 : (s.dropWhile isSpace).length ≤ s.length := length_dropWhile_le _ _
    rw [heq] at l1
    simp only [List.length_cons] at l1
    omega

lemma afterQuote_length (s : List Char) (q : Char) (s4 : List Char)
    (h : afterQuote s = some (q, s4)) : s4.length < s.length := by
  rw [afterQuote] at h
  split at h
  · cases h
  · rename_i q0 s5 heq
    split at h
    case isFalse => cases h
    cases h
    have l1 : (s.dropWhile isSpace).length ≤ s.length := length_dropWhile_le _ _
    rw [heq] at l1
    simp only [List.length_cons] at l1
    omega

lemma afterHref_length (s : List Char) (cap : String) (rem : List Char)
    (h : afterHref s = some (cap, rem)) : rem.length < s.length := by
  rw [afterHref] at h
  rcases heq1 : afterEq s with _ | s2 <;> rw [heq1] at h
  · cases h
  · have l1 := afterEq_length s s2 heq1
    rw [Option.some_bind] at h
    rcases heq2 : afterQuote s2 with _ | ⟨q, s4⟩ <;> rw [heq2] at h
    · cases h
    · have l2 := afterQuote_length s2 q s4 heq2
      rw [Option.some_bind] at h
      cases s4 with
      | nil => cases h
      | cons c0 s5 =>
        dsimp only at h
        split at h
        case isTrue => cases h
        have l3 := findClose_length s5 [c0] cap rem h
        simp only [List.length_cons] at l2
        omega

lemma afterA_length : ∀ (s : List Char) (cap : String) (rem : List Char),
    afterA s = some (cap, rem) → rem.length < s.length
  | [], _, _ => by intro h; cases h
  | c :: rest, cap, rem => by
    intro h
    rw [afterA] at h
    split at h
    · split at h
      · rename_i r heq
        cases h
        have l1 := afterHref_length _ _ _ heq
        rw [List.length_drop] at l1
        simp only [List.length_cons] at l1 ⊢
        omega
      · split at h
        · cases h
        · exact Nat.lt_trans (afterA_length rest cap rem h) (Nat.lt_succ_self _)
    · split at h
      · cases h
      · exact Nat.lt_trans (afterA_length rest cap rem h) (Nat.lt_succ_self _)

lemma tryAt_length (s : List Char) (cap : String) (rem : List Char)
    (h : tryAt s = some (cap, rem)) : rem.length < s.length := by
  cases s with
  | nil => simp [tryAt] at h
  | cons c1 s1 =>
    cases s1 with
    | nil => simp [tryAt] at h
    | cons c2 rest =>
      rw [tryAt] at h
      split at h
      · have l1 := afterA_length rest cap rem h
        simp only [List.length_cons]
        omega
      · cases h

lemma scanAux_congr (n : Nat) : ∀ (m : Nat) (s : List Char), s.length ≤ n → s.length ≤ m →
    scanAux n s = scanAux m s := by
  induction n with
  | zero =>
    intro m s hn _
    have hs : s = [] := List.length_eq_zero.mp (Nat.le_zero.mp hn)
    subst hs
    cases m <;> rfl
  | succ n ih =>
    intro m s hn hm
    cases s with
    | nil => cases m <;> rfl
    | cons c rest =>
      cases m with
      | zero => simp at hm
      | succ m =>
        rcases htry : tryAt (c :: rest) with _ | ⟨cap, rem⟩
        · simp only [scanAux, htry]
          have h1 : rest.length ≤ n := by simp only [List.length_cons] at hn; omega
          have h2 : rest.length ≤ m := by simp only [List.length_cons] at hm; omega
          exact ih m rest h1 h2
        · simp only [scanAux, htry]
          have hlt := tryAt_length _ _ _ htry
          simp only [List.length_cons] at hn hm hlt
          have h1 : rem.length ≤ n := by omega
          have h2 : rem.length ≤ m := by omega
          rw [ih m rem h1 h2]

/-- C10: the link extractor also accepts the pipe character as an href
value delimiter: on the input consisting of an anchor whose href value
is delimited by pipes, get_urls_from returns the target. -/
theorem claim_C10 : get_urls_from "<a href=|x|>" = ["x"] := by decide

/-- C5 counterexample: the input contains no single quote and no double
quote at all, hence no well-formed anchor construct in the sense of the
spec (its spec-modelled extractor returns nothing on it), yet
get_urls_from returns one target, because the regex delimiter class
also accepts the pipe character. -/
theorem claim_C5_counterexample :
    get_urls_from "<a href=|y|>" = ["y"] ∧
      specAnchorTargets "<a href=|y|>" = [] ∧
      "<a href=|y|>".data.all (fun c => !(c == qSingle) && !(c == qDouble)) = true := by
  refine ⟨by decide, by decide, by decide⟩

lemma dropWhile_space_append (ws l : List Char)
    (hws : ws.all isSpace = true) (c : Char) (hc : isSpace c = false) :
    (ws ++ c :: l).dropWhile isSpace = c :: l := by
  induction ws with
  | nil => simp [List.dropWhile_cons, hc]
  | cons w ws ih =>
    rw [List.all_cons, Bool.and_eq_true_iff] at hws
    simp [List.dropWhile_cons, hws.1, ih hws.2]

lemma isQuote_not_space {c : Char} (h : isQuote c = true) : isSpace c = false := by
  have hcase : c = qSingle ∨ c = '|' ∨ c = qDouble := by
    rw [isQuote] at h
    rcases Bool.or_eq_true_iff.mp h with h2 | h3
    · rcases Bool.or_eq_true_iff.mp h2 with h4 | h4
      · exact Or.inl (eq_of_beq h4)
      · exact Or.inr (Or.inl (eq_of_beq h4))
    · exact Or.inr (Or.inr (eq_of_beq h3))
  rcases hcase with rfl | rfl | rfl <;> decide

lemma afterEq_wf (ws : List Char) (hws : ws.all isSpace = true) (l : List Char) :
    afterEq (ws ++ '=' :: l) = some l := by
  rw [afterEq, dropWhile_space_append ws l hws '=' (by decide)]
  rfl

lemma afterQuote_wf (ws : List Char) (hws : ws.all isSpace = true)
    (q : Char) (hq : isQuote q = true) (l : List Char) :
    afterQuote (ws ++ q :: l) = some (q, l) := by
  rw [afterQuote, dropWhile_space_append ws l hws q (isQuote_not_space hq)]
  show (if isQuote q = true then some (q, l) else none) = some (q, l)
  rw [if_pos hq]

lemma tailClose_skip (post : List Char) (hpost : post.all (fun c => !(c == '>')) = true)
    (z : List Char) : tailClose (post ++ '>' :: z) = some z := by
  induction post with
  | nil =>
    rw [List.nil_append, tailClose]
    simp
  | cons c post ih =>
    rw [List.all_cons, Bool.and_eq_true_iff] at hpost
    have hc : (c == '>') = false := by simpa using hpost.1
    rw [List.cons_append, tailClose, if_neg (by rw [hc]; exact Bool.false_ne_true)]
    exact ih hpost.2

lemma findClose_skip (mid : List Char)
    (hmid : mid.all (fun c => !(isQuote c) && !(c == '\n')) = true) :
    ∀ (acc z : List Char), findClose acc (mid ++ z) = findClose (mid.reverse ++ acc) z := by
  induction mid with
  | nil => intro acc z; simp
  | cons c mid ih =>
    intro acc z
    rw [List.all_cons, Bool.and_eq_true_iff] at hmid
    rcases hmid with ⟨h1, h2⟩
    rcases Bool.and_eq_true_iff.mp h1 with ⟨hq, hn⟩
    have hq2 : isQuote c = false := by simpa using hq
    have hn2 : (c == '\n') = false := by simpa using hn
    rw [List.cons_append, findClose,
      if_neg (by rw [hq2]; exact Bool.false_ne_true),
      if_neg (by rw [hn2]; exact Bool.false_ne_true),
      ih h2 (c :: acc) z]
    congr 1
    simp

lemma afterHref_wf (ws1 ws2 : List Char)
    (hws1 : ws1.all isSpace = true) (hws2 : ws2.all isSpace = true)
    (qo qc : Char) (hqo : isQuote qo = true) (hqc : isQuote qc = true)
    (c0 : Char) (hc0 : (c0 == '#' || c0 == cBackslash || c0 == '/') = false)
    (ts : List Char) (hts : ts.all (fun c => !(isQuote c) && !(c == '\n')) = true)
    (post : List Char) (hpost : post.all (fun c => !(c == '>')) = true)
    (z : List Char) :
    afterHref (ws1 ++ '=' :: (ws2 ++ qo :: (c0 :: (ts ++ qc :: (post ++ '>' :: z)))))
      = some (String.mk (c0 :: ts), z) := by
  rw [afterHref, afterEq_wf ws1 hws1, Option.some_bind,
    afterQuote_wf ws2 hws2 qo hqo, Option.some_bind]
  show (if (c0 == '#' || c0 == cBackslash || c0 == '/') = true then none
      else findClose [c0] (ts ++ qc :: (post ++ '>' :: z)))
    = some (String.mk (c0 :: ts), z)
  rw [if_neg (by rw [hc0]; exact Bool.false_ne_true),
    findClose_skip ts hts [c0] (qc :: (post ++ '>' :: z)),
    findClose, if_pos hqc, tailClose_skip post hpost z]
  simp

lemma isPrefixHref_boundary (c : Char) (rest w : List Char) :
    isPrefixHref ((c :: rest) ++ (['h', 'r', 'e', 'f'] ++ w))
      = isPrefixHref ((c :: rest) ++ ['h', 'r', 'e']) := by
  rcases rest with _ | ⟨c2, _ | ⟨c3, _ | ⟨c4, r⟩⟩⟩ <;> rfl

lemma afterA_pre (w : List Char) (res : String × List Char) (h : afterHref w = some res) :
    ∀ (pre : List Char), pre.all (fun c => !(c == '>')) = true → noEarlyHref pre = true →
      afterA (pre ++ (['h', 'r', 'e', 'f'] ++ w)) = some res
  | [] => by
    intro _ _
    rw [List.nil_append]
    show afterA ('h' :: 'r' :: 'e' :: 'f' :: w) = some res
    rw [afterA,
      if_pos (show isPrefixHref ('h' :: 'r' :: 'e' :: 'f' :: w) = true from rfl),
      show ('h' :: 'r' :: 'e' :: 'f' :: w).drop 4 = w from rfl, h]
  | c :: pre => by
    intro hgt hhref
    rw [noEarlyHref, Bool.and_eq_true_iff] at hhref
    rw [List.all_cons, Bool.and_eq_true_iff] at hgt
    have hfalse : isPrefixHref (c :: (pre ++ (['h', 'r', 'e', 'f'] ++ w))) = false := by
      have hb := isPrefixHref_boundary c pre w
      rw [List.cons_append] at hb
      rw [hb]
      simpa using hhref.1
    have hc : (c == '>') = false := by simpa using hgt.1
    rw [List.cons_append, afterA,
      if_neg (by rw [hfalse]; exact Bool.false_ne_true),
      if_neg (by rw [hc]; exact Bool.false_ne_true)]
    exact afterA_pre w res h pre hgt.2 hhref.2

lemma tryAt_anchor (a : Anchor) (ha : a.ok = true) (z : List Char) :
    tryAt (a.text ++ z) = some (String.mk a.target, z) := by
  obtain ⟨pre, ws1, ws2, qo, qc, t0, ts, post⟩ := a
  simp only [Anchor.ok, Anchor.target, Bool.and_eq_true, and_assoc] at ha
  obtain ⟨hpre, hhref, hws1, hws2, hqo, hqc, hc0, hts, hpost⟩ := ha
  rw [List.all_cons, Bool.and_eq_true_iff] at hts
  have hnorm : Anchor.text ⟨pre, ws1, ws2, qo, qc, t0, ts, post⟩ ++ z
      = '<' :: 'a' :: (pre ++ (['h', 'r', 'e', 'f'] ++
          (ws1 ++ '=' :: (ws2 ++ qo :: (t0 :: (ts ++ qc :: (post ++ '>' :: z))))))) := by
    rw [Anchor.text]
    simp [List.append_assoc]
  rw [hnorm, tryAt, if_pos (by decide)]
  exact afterA_pre _ _
    (afterHref_wf ws1 ws2 hws1 hws2 qo qc hqo hqc t0 (by simpa using hc0) ts hts.2 post hpost z)
    pre hpre hhref

lemma tryAt_none (c : Char) (hc : (c == '<') = false) (l : List Char) :
    tryAt (c :: l) = none := by
  cases l with
  | nil => rfl
  | cons c2 rest =>
    have h : ¬ ((c == '<' && c2 == 'a') = true) := by
      rw [hc]
      simp
    rw [tryAt, if_neg h]

lemma scanAux_no_anchor : ∀ (sep : List Char), sep.all (fun c => !(c == '<')) = true →
    ∀ (n : Nat), scanAux n sep = []
  | [] => by intro _ n; cases n <;> rfl
  | c :: sep => by
    intro hsep n
    rw [List.all_cons, Bool.and_eq_true_iff] at hsep
    cases n with
    | zero => rfl
    | succ n =>
      have hc : (c == '<') = false := by simpa using hsep.1
      simp only [scanAux, tryAt_none c hc sep]
      exact scanAux_no_anchor sep hsep.2 n

lemma scanAux_skip : ∀ (sep : List Char), sep.all (fun c => !(c == '<')) = true →
    ∀ (z : List Char) (n : Nat), (sep ++ z).length ≤ n →
      scanAux n (sep ++ z) = scanAux z.length z
  | [] => by
    intro _ z n hn
    rw [List.nil_append] at hn ⊢
    exact scanAux_congr n z.length z hn le_rfl
  | c :: sep => by
    intro hsep z n hn
    rw [List.all_cons, Bool.and_eq_true_iff] at hsep
    rw [List.cons_append] at hn ⊢
    cases n with
    | zero => simp at hn
    | succ n =>
      have hc : (c == '<') = false := by simpa using hsep.1
      simp only [scanAux, tryAt_none c hc (sep ++ z)]
      have hn2 : (sep ++ z).length ≤ n := by
        simp only [List.length_cons] at hn
        omega
      exact scanAux_skip sep hsep.2 z n hn2

lemma scanAux_anchor (a : Anchor) (ha : a.ok = true) (z : List Char) :
    scanAux ((a.text ++ z).length) (a.text ++ z)
      = String.mk a.target :: scanAux z.length z := by
  have htry := tryAt_anchor a ha z
  have hsplit : a.text ++ z = '<' :: 'a' :: (a.pre ++ (['h', 'r', 'e', 'f'] ++
      (a.ws1 ++ '=' :: (a.ws2 ++ a.qo :: (a.t0 :: (a.ts ++ a.qc :: (a.post ++ '>' :: z))))))) := by
    rw [Anchor.text]
    simp [List.append_assoc]
  rw [hsplit] at htry ⊢
  have hzle : z.length ≤ (a.pre ++ (['h', 'r', 'e', 'f'] ++
      (a.ws1 ++ '=' :: (a.ws2 ++ a.qo :: (a.t0 :: (a.ts ++ a.qc :: (a.post ++ '>' :: z))))))).length + 1 := by
    simp [List.length_append]
    omega
  simp only [List.length_cons]
  simp only [scanAux, htry]
  exact congrArg _ (scanAux_congr _ z.length z hzle le_rfl)

lemma scanAux_buildText (last : List Char)
    (hlast : last.all (fun c => !(c == '<')) = true) :
    ∀ (L : List (List Char × Anchor)), segsOk L = true →
      scanAux (buildText L last).length (buildText L last)
        = L.map (fun p => String.mk p.2.target)
  | [] => by
    intro _
    rw [buildText]
    exact scanAux_no_anchor last hlast _
  | (sep, a) :: L => by
    intro hL
    simp only [segsOk, List.all_cons, Bool.and_eq_true] at hL
    obtain ⟨⟨hsep, hok⟩, htail⟩ := hL
    rw [buildText]
    simp only [List.append_assoc]
    rw [scanAux_skip sep hsep (a.text ++ buildText L last) _ le_rfl]
    rw [scanAux_anchor a hok (buildText L last)]
    rw [List.map_cons]
    congr 1
    exact scanAux_buildText last hlast L htail

/-- C5 amended: the extractor matches anchor-like constructs whose
delimiter class is the single quote, the double quote and additionally
the pipe, with independently chosen (possibly mismatched) opening and
closing delimiters; for every input built by interleaving separator
text without opening angle brackets and N such anchor constructs (extra
attribute text allowed around href when it contains no closing bracket
and no stray href occurrence, optional whitespace around the equals
sign, target nonempty, not starting with a hash, backslash or slash,
and containing no delimiter or newline characters), get_urls_from
returns exactly the N targets in document order; constructs without a
delimited href value yield nothing. -/
theorem claim_C5_amended (L : List (List Char × Anchor)) (last : List Char)
    (hL : segsOk L = true) (hlast : last.all (fun c => !(c == '<')) = true) :
    get_urls_from (String.mk (buildText L last)) = L.map (fun p => String.mk p.2.target) := by
  rw [get_urls_from]
  exact scanAux_buildText last hlast L hL

/-- Witness for C5 at the text of the repository regex test: one
single-quoted and one double-quoted anchor with separator text between
them. -/
theorem claim_C5_witness :
    get_urls_from (String.mk (buildText exampleSegs []))
      = ["www.traplinked.com", "www.chip.de"] := by
  rw [claim_C5_amended exampleSegs [] (by decide) (by decide)]
  decide
